import Mathlib

/-!
Verification development for the stratified dataset splitter
(src/tools/split_dataset.py).

The splitter is modelled as pure Lean functions:

* the filesystem is an explicit input: the listing of the images
  directory, and the label files as pairs (stem, lines), both in the
  order the directory iteration yields them;
* Python floats (the ratios) are modelled as exact rationals; every
  concrete ratio used in a theorem below is a dyadic rational whose
  float arithmetic in the source is exact;
* Python `random` (a global Mersenne Twister seeded once by
  `random.seed(seed)`) is modelled as an explicit PRNG state threaded
  in the same consumption order as the source (one shuffle per group in
  group order, then the three final shuffles).  The generator itself is
  abstracted to a linear congruential step; every theorem below depends
  only on `shuffle` being a deterministic, permutation-producing
  function of the state, never on particular shuffled values;
* Python dicts (`image_to_classes`, `groups`) are modelled as
  insertion-ordered association lists, `set`/`frozenset` of class ids
  as `Finset Int`.
-/

namespace SplitDataset

/-- Model of the PRNG state step (model of Python random; the claims
depend only on determinism, not on the generated values). -/
def lcgNext (s : Nat) : Nat :=
  (6364136223846793005 * s + 1442695040888963407) % 18446744073709551616

/-- Fuelled extraction shuffle: repeatedly draw an index from the PRNG
state, move that element to the output, recurse on the rest.  Model of
random.shuffle (line 82 of the source): a deterministic permutation of
the list, consuming the PRNG state. -/
def shuffleGo {α : Type} : Nat → Nat → List α → List α × Nat
  | 0, st, _ => ([], st)
  | _ + 1, st, [] => ([], st)
  | fuel + 1, st, x :: xs =>
    let st1 := lcgNext st
    let j := st1 % (xs.length + 1)
    let r := shuffleGo fuel st1 ((x :: xs).eraseIdx j)
    ((x :: xs).getD j x :: r.1, r.2)

/-- Shuffle a list, threading the PRNG state. -/
def shuffle {α : Type} (st : Nat) (l : List α) : List α × Nat :=
  shuffleGo l.length st l

/-- Model of random.seed: fixes the initial PRNG state from the seed. -/
def seedInit (seed : Nat) : Nat := seed

/-- Python int() truncates toward zero (the source applies `int` to
`n_total * ratio`, lines 90-91). -/
def pyTrunc (q : ℚ) : Int := if q < 0 then Int.ceil q else Int.floor q

/-- Normalization of a Python slice index against a list length:
negative indices count from the end (clamped at 0), positive ones are
clamped at the length. -/
def pyIdx (len : Nat) (i : Int) : Nat :=
  if i < 0 then ((len : Int) + i).toNat else min i.toNat len

/-- Python slice l[:b]. -/
def pySliceTo {α : Type} (l : List α) (b : Int) : List α :=
  l.take (pyIdx l.length b)

/-- Python slice l[a:]. -/
def pySliceFrom {α : Type} (l : List α) (a : Int) : List α :=
  l.drop (pyIdx l.length a)

/-- Python slice l[a:b]. -/
def pySliceBetween {α : Type} (l : List α) (a b : Int) : List α :=
  (l.take (pyIdx l.length b)).drop (pyIdx l.length a)

/-- Digits of a Python integer literal after the first digit: ASCII
digits, single underscores allowed between digits (Python int()
accepts `1_0`). -/
def pyDigitsAux : List Char → Nat → Option Nat
  | [], acc => some acc
  | '_' :: c :: rest, acc =>
    if c.isDigit then pyDigitsAux rest (acc * 10 + (c.toNat - 48)) else none
  | ['_'], _ => none
  | c :: rest, acc =>
    if c.isDigit then pyDigitsAux rest (acc * 10 + (c.toNat - 48)) else none

/-- Unsigned part of a Python integer literal: at least one digit. -/
def pyNatOfChars : List Char → Option Nat
  | [] => none
  | c :: rest => if c.isDigit then pyDigitsAux rest (c.toNat - 48) else none

/-- Model of Python int() on a whitespace-free token (ASCII): optional
sign followed by digits.  Returns none where int() raises ValueError. -/
def pyInt (s : String) : Option Int :=
  match s.toList with
  | '+' :: rest => (pyNatOfChars rest).map (fun n => (n : Int))
  | '-' :: rest => (pyNatOfChars rest).map (fun n => -(n : Int))
  | cs => (pyNatOfChars cs).map (fun n => (n : Int))

/-- Model of str.strip() (ASCII whitespace): drop whitespace from both
ends. -/
def pyStrip (s : String) : String :=
  String.mk
    (((s.toList.dropWhile (fun c => c.isWhitespace)).reverse.dropWhile
      (fun c => c.isWhitespace)).reverse)

/-- Accumulator pass of str.split(): current (reversed) token and the
remaining characters. -/
def splitWsAux : List Char → List Char → List String
  | [], cur => if cur.isEmpty then [] else [String.mk cur.reverse]
  | c :: rest, cur =>
    if c.isWhitespace then
      if cur.isEmpty then splitWsAux rest []
      else String.mk cur.reverse :: splitWsAux rest []
    else splitWsAux rest (c :: cur)

/-- Model of str.split() with no argument: split on whitespace runs,
dropping empty tokens (so `line.strip().split()` equals
`line.split()`). -/
def pyTokens (line : String) : List String :=
  splitWsAux line.toList []

/-- Parse one label line as the source does (line 57):
`int(line.strip().split()[0])`.  none models the caught ValueError
(non-integer first token) or IndexError (no token after strip). -/
def parseClassId (line : String) : Option Int :=
  match (pyTokens line).head? with
  | some t => pyInt t
  | none => none

/-- The image_to_classes dict: insertion-ordered association list from
stem to its set of class ids. -/
abbrev Index := List (String × Finset Int)

/-- Model of `image_to_classes[stem].add(class_id)` on a defaultdict:
update the existing entry, or append a fresh singleton entry. -/
def addClass : Index → String → Int → Index
  | [], s, c => [(s, {c})]
  | p :: rest, s, c =>
    if p.1 = s then (p.1, insert c p.2) :: rest
    else p :: addClass rest s c

/-- Lookup of a stem in the index (empty set when absent). -/
def classesOf : Index → String → Finset Int
  | [], _ => ∅
  | p :: rest, s => if p.1 = s then p.2 else classesOf rest s

/-- Stems currently present in the index, in insertion order. -/
def keysOf (idx : Index) : List String := idx.map Prod.fst

/-- Process one label line (source lines 55-60): a parsed class id is
added to the stem entry; a parse failure appends a warning (modelled
as the pair (stem, stripped line)) and leaves the index unchanged. -/
def processLine (stem : String) (acc : Index × List (String × String))
    (line : String) : Index × List (String × String) :=
  match parseClassId line with
  | some c => (addClass acc.1 stem c, acc.2)
  | none => (acc.1, acc.2 ++ [(stem, pyStrip line)])

/-- Process one label file: fold its lines. -/
def processFile (acc : Index × List (String × String))
    (f : String × List String) : Index × List (String × String) :=
  f.2.foldl (processLine f.1) acc

/-- Source lines 51-60: read every label file in directory order,
producing the index and the parse warnings. -/
def readLabels (files : List (String × List String)) :
    Index × List (String × String) :=
  files.foldl processFile ([], [])

/-- Index of the last dot of a character list, if any. -/
def lastDotIdx : List Char → Option Nat
  | [] => none
  | c :: rest =>
    match lastDotIdx rest with
    | some i => some (i + 1)
    | none => if c = '.' then some 0 else none

/-- Model of pathlib stem/suffix splitting: the suffix starts at the
last dot, provided that dot is neither the first nor the last
character (so `.bashrc` and `a.` have an empty suffix). -/
def pathStemSuffix (name : String) : String × String :=
  let cs := name.toList
  match lastDotIdx cs with
  | some i =>
    if 0 < i ∧ i + 1 < cs.length then
      (String.mk (cs.take i), String.mk (cs.drop i))
    else (name, "")
  | none => (name, "")

/-- Filename without its suffix (pathlib Path.stem). -/
def pathStem (name : String) : String := (pathStemSuffix name).1

/-- Filename suffix including the dot (pathlib Path.suffix). -/
def pathSuffix (name : String) : String := (pathStemSuffix name).2

/-- ASCII lowercase of a string (model of str.lower on extensions). -/
def lowerStr (s : String) : String := String.mk (s.toList.map Char.toLower)

/-- Extension filter of source lines 63 and 167:
`p.suffix.lower() in [&.jpg, .jpeg, .png&]`. -/
def isImageFile (name : String) : Bool :=
  [".jpg", ".jpeg", ".png"].contains (lowerStr (pathSuffix name))

/-- Stems of the image files, in directory order (source line 63 forms
a set of these; set deduplication is immaterial because insertion into
the index ignores stems already present). -/
def imageStemsOf (imageFiles : List String) : List String :=
  (imageFiles.filter isImageFile).map pathStem

/-- Source lines 64-66: every image stem not already indexed through a
label file is appended with an empty class set (background image). -/
def addImageStems (idx : Index) (stems : List String) : Index :=
  stems.foldl
    (fun i s => if s ∈ keysOf i then i else i ++ [(s, (∅ : Finset Int))]) idx

/-- The fully built index: label files first, then background images. -/
def fullIndex (imageFiles : List String)
    (labelFiles : List (String × List String)) : Index :=
  addImageStems (readLabels labelFiles).1 (imageStemsOf imageFiles)

/-- The groups dict: insertion-ordered association list from class
composition (frozenset key) to the list of stems in the group. -/
abbrev Groups := List (Finset Int × List String)

/-- Model of `groups[class_composition].append(stem)` on a defaultdict. -/
def addToGroup : Groups → Finset Int → String → Groups
  | [], k, s => [(k, [s])]
  | g :: rest, k, s =>
    if g.1 = k then (g.1, g.2 ++ [s]) :: rest
    else g :: addToGroup rest k s

/-- Source lines 69-73: group the indexed stems by class composition,
in index insertion order (recursion equivalent of the fold over
image_to_classes.items()). -/
def buildGroupsGo : Groups → Index → Groups
  | gs, [] => gs
  | gs, p :: rest => buildGroupsGo (addToGroup gs p.2 p.1) rest

/-- The groups built from an index. -/
def buildGroups (idx : Index) : Groups := buildGroupsGo [] idx

/-- All stems of all groups, in group order. -/
def groupStems (gs : Groups) : List String := (gs.map Prod.snd).flatten

/-- Source line 90: `n_train = int(n_total * train_ratio)`. -/
def nTrainRaw (tr : ℚ) (n : Nat) : Int := pyTrunc ((n : ℚ) * tr)

/-- Source lines 91-95: `n_val = int(n_total * val_ratio)`, forced to 1
when `val_ratio > 0 and n_val == 0 and n_total > n_train`. -/
def nValAdj (tr vr : ℚ) (n : Nat) : Int :=
  if 0 < vr ∧ pyTrunc ((n : ℚ) * vr) = 0 ∧ (n : Int) > nTrainRaw tr n then 1
  else pyTrunc ((n : ℚ) * vr)

/-- Source lines 90-101: the per-group counts (n_train, n_val, n_test).
n_test is the remainder; a negative remainder is absorbed into
n_train and n_test set to 0. -/
def allocCounts (tr vr : ℚ) (n : Nat) : Int × Int × Int :=
  let a := nTrainRaw tr n
  let b := nValAdj tr vr n
  let c0 := (n : Int) - a - b
  if c0 < 0 then (a + c0, b, 0) else (a, b, c0)

/-- Source lines 81-105, one group: shuffle the stems; a group of fewer
than 3 stems goes wholly to train; otherwise slice the shuffled list at
n_train and n_train + n_val. -/
def allocGroup (tr vr : ℚ) (st : Nat) (stems : List String) :
    (List String × List String × List String) × Nat :=
  let sh := shuffle st stems
  let shuffled := sh.1
  let n := shuffled.length
  if n < 3 then ((shuffled, [], []), sh.2)
  else
    let c := allocCounts tr vr n
    ((pySliceTo shuffled c.1,
      pySliceBetween shuffled c.1 (c.1 + c.2.1),
      pySliceFrom shuffled (c.1 + c.2.1)), sh.2)

/-- The three split lists (train, val, test). -/
structure Splits where
  train : List String
  val : List String
  test : List String
  deriving DecidableEq, Repr

/-- Concatenation of the three split lists. -/
def unionOf (sp : Splits) : List String := sp.train ++ sp.val ++ sp.test

/-- Source lines 79-105: run the allocator over the groups in group
order, extending the three accumulating lists and threading the PRNG
state. -/
def splitGroupsGo (tr vr : ℚ) : Groups → Splits → Nat → Splits × Nat
  | [], acc, st => (acc, st)
  | g :: gs, acc, st =>
    let r := allocGroup tr vr st g.2
    splitGroupsGo tr vr gs
      ⟨acc.train ++ r.1.1, acc.val ++ r.1.2.1, acc.test ++ r.1.2.2⟩ r.2

/-- The per-group allocation pass, started from three empty lists. -/
def splitGroups (tr vr : ℚ) (gs : Groups) (st : Nat) : Splits × Nat :=
  splitGroupsGo tr vr gs ⟨[], [], []⟩ st

/-- Source lines 108-110: the three final reshuffles, in order train,
val, test, on the shared PRNG state. -/
def finalShuffles (sp : Splits) (st : Nat) : Splits × Nat :=
  let t := shuffle st sp.train
  let v := shuffle t.2 sp.val
  let te := shuffle v.2 sp.test
  (⟨t.1, v.1, te.1⟩, te.2)

/-- The stratified path of the source (lines 49-110): build the index,
group, allocate per group, reshuffle.  Returns the final splits and the
parse warnings. -/
def stratifiedRun (imageFiles : List String)
    (labelFiles : List (String × List String)) (tr vr : ℚ) (seed : Nat) :
    Splits × List (String × String) :=
  let rl := readLabels labelFiles
  let idx := addImageStems rl.1 (imageStemsOf imageFiles)
  let gs := buildGroups idx
  let r1 := splitGroups tr vr gs (seedInit seed)
  let r2 := finalShuffles r1.1 r1.2
  (r2.1, rl.2)

/-- One physical file operation of the materialization step. -/
structure FileOp where
  splitName : String
  srcFile : String
  isCopy : Bool
  deriving DecidableEq, Repr

/-- Character-level test that the first list starts with the second. -/
def listStartsWith : List Char → List Char → Bool
  | _, [] => true
  | [], _ :: _ => false
  | c :: cs, p :: ps => c = p && listStartsWith cs ps

/-- String version of listStartsWith. -/
def strStartsWith (s pat : String) : Bool :=
  listStartsWith s.toList pat.toList

/-- Source line 140: `next(source_images_dir.glob(&{base_name}.*&),
None)` picks the first file of the images directory whose name starts
with the stem followed by a dot. -/
def findImage (imageFiles : List String) (base : String) : Option String :=
  imageFiles.find? (fun f => strStartsWith f (base ++ "."))

/-- File operations caused by one stem of one split (source lines
138-156): nothing when no image file matches; otherwise the image
operation, plus the label operation when a label file with that stem
exists. -/
def matOps (imageFiles : List String) (labelStems : List String)
    (copyFiles : Bool) (splitName : String) (b : String) : List FileOp :=
  match findImage imageFiles b with
  | none => []
  | some f =>
    ⟨splitName, f, copyFiles⟩ ::
      (if b ∈ labelStems then [⟨splitName, b ++ ".txt", copyFiles⟩] else [])

/-- File operations of one split list, in list order. -/
def materializeSplit (imageFiles : List String) (labelStems : List String)
    (copyFiles : Bool) (splitName : String) (stems : List String) :
    List FileOp :=
  (stems.map (matOps imageFiles labelStems copyFiles splitName)).flatten

/-- Source lines 127-156: materialize the three splits in dict order. -/
def materializeAll (imageFiles : List String) (labelStems : List String)
    (copyFiles : Bool) (sp : Splits) : List FileOp :=
  materializeSplit imageFiles labelStems copyFiles "train" sp.train ++
    materializeSplit imageFiles labelStems copyFiles "val" sp.val ++
    materializeSplit imageFiles labelStems copyFiles "test" sp.test

/-- Source line 23: the ratio validation accepts exactly the triples
whose sum lies strictly between 0.999 and 1.001.  Note it constrains
only the sum. -/
def ratiosValid (tr vr te : ℚ) : Prop :=
  999 / 1000 < tr + vr + te ∧ tr + vr + te < 1001 / 1000

instance ratiosValidDecidable (tr vr te : ℚ) : Decidable (ratiosValid tr vr te) := by
  unfold ratiosValid
  infer_instance

/-- Directory state consumed by the splitter: existence flags and the
two directory listings. -/
structure DirListing where
  imagesDirExists : Bool
  labelsDirExists : Bool
  imageFiles : List String
  labelFiles : List (String × List String)
  deriving DecidableEq, Repr

/-- Observable outcome of a run: the warnings printed, the stem
assignment produced (none when the function returns without one), and
the physical file operations performed. -/
structure RunResult where
  warnings : List String
  assignments : Option Splits
  ops : List FileOp
  deriving DecidableEq, Repr

/-- Warning of source lines 44-45 (labels directory missing). -/
def noLabelsWarning : String :=
  "Warning: Source labels directory not found. Proceeding with random split as stratification is not possible."

/-- Error print of source line 40 (images directory missing). -/
def imagesDirError : String :=
  "Error: Source images directory not found"

/-- Message of the ValueError raised at source line 24. -/
def ratioErrMsg (total : ℚ) : String :=
  "Ratios must sum to 1.0, but got " ++ toString total

/-- Warning printed for an unparseable label line (source line 60). -/
def mkParseWarning (p : String × String) : String :=
  "Warning: Could not parse line in " ++ p.1 ++ ".txt: " ++ p.2

/-- Source lines 161-176: the body of _split_randomly computes shuffled
stem lists sliced at int(total*ratios[0]) and int(total*ratios[1]).
The source then discards these lists: the function body ends in `pass`
and returns None (lines 178-188). -/
def _split_randomly_lists (imageFiles : List String) (tr vr : ℚ)
    (seed : Nat) : Splits :=
  let files := (shuffle (seedInit seed) (imageStemsOf imageFiles)).1
  let tc := pyTrunc ((files.length : ℚ) * tr)
  let vc := pyTrunc ((files.length : ℚ) * vr)
  ⟨pySliceTo files tc, pySliceBetween files tc (tc + vc),
    pySliceFrom files (tc + vc)⟩

/-- Top-level split_dataset_stratified (source lines 9-158): validate
the ratio sum (raise = Except.error), bail out when the images
directory is missing, fall back when the labels directory is missing
(the fallback emits a warning, and — as the source stands — produces no
assignment and performs no file operation, since _split_randomly
discards its computation and returns None), otherwise run the
stratified split and materialize it. -/
def split_dataset_stratified (d : DirListing) (tr vr te : ℚ)
    (copyFiles : Bool) (seed : Nat) : Except String RunResult :=
  if ratiosValid tr vr te then
    if d.imagesDirExists then
      if d.labelsDirExists then
        let r := stratifiedRun d.imageFiles d.labelFiles tr vr seed
        Except.ok ⟨r.2.map mkParseWarning, some r.1,
          materializeAll d.imageFiles (d.labelFiles.map Prod.fst) copyFiles
            r.1⟩
      else Except.ok ⟨[noLabelsWarning], none, []⟩
    else Except.ok ⟨[imagesDirError], none, []⟩
  else Except.error (ratioErrMsg (tr + vr + te))

/-! Basic facts about the shuffle model. -/

theorem getD_cons_eraseIdx_perm {α : Type} (l : List α) (j : Nat) (d : α)
    (h : j < l.length) : (l.getD j d :: l.eraseIdx j).Perm l := by
  induction l generalizing j with
  | nil => simp at h
  | cons a t ih =>
    cases j with
    | zero => simp
    | succ j =>
      have hj : j < t.length := by simpa using h
      simp only [List.getD_cons_succ, List.eraseIdx_cons_succ]
      exact ((List.Perm.swap a (t.getD j d) _).trans
        ((ih j hj).cons a)).symm.symm

theorem shuffleGo_perm {α : Type} (fuel : Nat) :
    ∀ (st : Nat) (l : List α), l.length ≤ fuel →
      ((shuffleGo fuel st l).1).Perm l := by
  induction fuel with
  | zero =>
    intro st l h
    have : l = [] := List.length_eq_zero.mp (Nat.le_zero.mp h)
    subst this
    simp [shuffleGo]
  | succ fuel ih =>
    intro st l h
    cases l with
    | nil => simp [shuffleGo]
    | cons x xs =>
      simp only [shuffleGo]
      have hj : lcgNext st % (xs.length + 1) < (x :: xs).length := by
        simpa using Nat.mod_lt _ (Nat.succ_pos xs.length)
      have hrest :
          ((x :: xs).eraseIdx (lcgNext st % (xs.length + 1))).length ≤ fuel := by
        have h2 := List.length_eraseIdx_add_one hj
        simp only [List.length_cons] at h2 h
        omega
      exact ((ih _ _ hrest).cons _).trans
        (getD_cons_eraseIdx_perm (x :: xs) _ x hj)

theorem shuffle_perm {α : Type} (st : Nat) (l : List α) :
    ((shuffle st l).1).Perm l :=
  shuffleGo_perm l.length st l le_rfl

theorem shuffle_length {α : Type} (st : Nat) (l : List α) :
    (shuffle st l).1.length = l.length :=
  (shuffle_perm st l).length_eq

/-! Facts about Python slice-index normalization and slices. -/

theorem pyIdx_le (len : Nat) (i : Int) : pyIdx len i ≤ len := by
  unfold pyIdx
  split
  · omega
  · exact min_le_right _ _

theorem pyIdx_self (len : Nat) : pyIdx len (len : Int) = len := by
  unfold pyIdx
  split
  · omega
  · simp

theorem pyIdx_mono (len : Nat) {i j : Int} (h0 : 0 ≤ i) (hij : i ≤ j) :
    pyIdx len i ≤ pyIdx len j := by
  unfold pyIdx
  split
  · omega
  · split
    · omega
    · simp only [Nat.min_def]
      split <;> split <;> omega

theorem pyIdx_of_nonneg_le (len : Nat) {i : Int} (h0 : 0 ≤ i)
    (h : i ≤ (len : Int)) : pyIdx len i = i.toNat := by
  unfold pyIdx
  split
  · omega
  · simp only [Nat.min_def]
    split <;> omega

theorem pySlice_partition {α : Type} (l : List α) (a b : Int)
    (h : pyIdx l.length a ≤ pyIdx l.length b) :
    pySliceTo l a ++ (pySliceBetween l a b ++ pySliceFrom l b) = l := by
  unfold pySliceTo pySliceBetween pySliceFrom
  have h1 : l.take (pyIdx l.length a) = (l.take (pyIdx l.length b)).take (pyIdx l.length a) := by
    rw [List.take_take, Nat.min_eq_left h]
  rw [← List.append_assoc, h1, List.take_append_drop, List.take_append_drop]

theorem length_pySliceTo {α : Type} (l : List α) (b : Int) :
    (pySliceTo l b).length = pyIdx l.length b := by
  simp [pySliceTo, Nat.min_eq_left (pyIdx_le l.length b)]

theorem length_pySliceFrom {α : Type} (l : List α) (a : Int) :
    (pySliceFrom l a).length = l.length - pyIdx l.length a := by
  simp [pySliceFrom]

theorem length_pySliceBetween {α : Type} (l : List α) (a b : Int) :
    (pySliceBetween l a b).length = pyIdx l.length b - pyIdx l.length a := by
  simp [pySliceBetween, Nat.min_eq_left (pyIdx_le l.length b)]

/-! Facts about the allocator arithmetic. -/

theorem pyTrunc_nonneg {q : ℚ} (h : 0 ≤ q) : 0 ≤ pyTrunc q := by
  unfold pyTrunc
  split
  · exact absurd h (not_le.mpr (by assumption))
  · exact Int.floor_nonneg.mpr h

theorem pyTrunc_le_natCast {q : ℚ} {n : Nat} (h : q ≤ (n : ℚ)) :
    pyTrunc q ≤ (n : Int) := by
  unfold pyTrunc
  split
  · calc Int.ceil q ≤ Int.ceil ((n : ℚ)) := Int.ceil_le_ceil h
      _ = (n : Int) := by exact_mod_cast Int.ceil_intCast (n : Int)
  · calc Int.floor q ≤ Int.floor ((n : ℚ)) := Int.floor_le_floor h
      _ = (n : Int) := by exact_mod_cast Int.floor_intCast (n : Int)

theorem nTrainRaw_nonneg {tr : ℚ} (htr : 0 ≤ tr) (n : Nat) :
    0 ≤ nTrainRaw tr n :=
  pyTrunc_nonneg (mul_nonneg (Nat.cast_nonneg n) htr)

theorem nValAdj_nonneg (tr : ℚ) {vr : ℚ} (hvr : 0 ≤ vr) (n : Nat) :
    0 ≤ nValAdj tr vr n := by
  unfold nValAdj
  split
  · omega
  · exact pyTrunc_nonneg (mul_nonneg (Nat.cast_nonneg n) hvr)

theorem nValAdj_le_natCast (tr : ℚ) {vr : ℚ} (hvr1 : vr ≤ 1) {n : Nat}
    (hn : 1 ≤ n) : nValAdj tr vr n ≤ (n : Int) := by
  unfold nValAdj
  split
  · omega
  · exact pyTrunc_le_natCast
      (by calc (n : ℚ) * vr ≤ (n : ℚ) * 1 :=
            mul_le_mul_of_nonneg_left hvr1 (Nat.cast_nonneg n)
          _ = (n : ℚ) := mul_one _)

theorem allocCounts_sum (tr vr : ℚ) (n : Nat) :
    (allocCounts tr vr n).1 + (allocCounts tr vr n).2.1 +
      (allocCounts tr vr n).2.2 = (n : Int) := by
  simp only [allocCounts]
  split <;> ring

theorem allocCounts_test_nonneg (tr vr : ℚ) (n : Nat) :
    0 ≤ (allocCounts tr vr n).2.2 := by
  simp only [allocCounts]
  split
  · exact le_rfl
  · dsimp only
    omega

theorem allocCounts_train_nonneg {tr vr : ℚ} (htr : 0 ≤ tr) (hvr1 : vr ≤ 1)
    {n : Nat} (hn : 1 ≤ n) : 0 ≤ (allocCounts tr vr n).1 := by
  simp only [allocCounts]
  have h1 := nTrainRaw_nonneg htr n
  have h2 := nValAdj_le_natCast tr hvr1 hn
  split <;> dsimp only <;> omega

theorem allocCounts_idx_le {tr vr : ℚ} (htr : 0 ≤ tr) (hvr : 0 ≤ vr)
    (n : Nat) :
    pyIdx n (allocCounts tr vr n).1 ≤
      pyIdx n ((allocCounts tr vr n).1 + (allocCounts tr vr n).2.1) := by
  have h1 := nTrainRaw_nonneg htr n
  have h2 := nValAdj_nonneg tr hvr n
  simp only [allocCounts]
  split
  · dsimp only
    have he : nTrainRaw tr n + ((n : Int) - nTrainRaw tr n - nValAdj tr vr n) +
        nValAdj tr vr n = (n : Int) := by ring
    rw [he, pyIdx_self]
    exact pyIdx_le _ _
  · dsimp only
    exact pyIdx_mono n h1 (by omega)

/-! Permutation facts about per-group allocation. -/

theorem allocGroup_union_perm {tr vr : ℚ} (htr : 0 ≤ tr) (hvr : 0 ≤ vr)
    (st : Nat) (stems : List String) :
    ((allocGroup tr vr st stems).1.1 ++
      ((allocGroup tr vr st stems).1.2.1 ++
        (allocGroup tr vr st stems).1.2.2)).Perm stems := by
  simp only [allocGroup]
  split
  · simpa using shuffle_perm st stems
  · rw [pySlice_partition _ _ _ (allocCounts_idx_le htr hvr _)]
    exact shuffle_perm st stems

theorem splitGroupsGo_union_multiset {tr vr : ℚ} (htr : 0 ≤ tr)
    (hvr : 0 ≤ vr) (gs : Groups) :
    ∀ (acc : Splits) (st : Nat),
      (↑(unionOf (splitGroupsGo tr vr gs acc st).1) : Multiset String) =
        ↑(unionOf acc) + ↑(groupStems gs) := by
  induction gs with
  | nil => intro acc st; simp [splitGroupsGo, groupStems]
  | cons g gs ih =>
    intro acc st
    simp only [splitGroupsGo]
    rw [ih]
    have hco : (↑((allocGroup tr vr st g.2).1.1 ++
        ((allocGroup tr vr st g.2).1.2.1 ++
          (allocGroup tr vr st g.2).1.2.2)) : Multiset String) = ↑g.2 :=
      Multiset.coe_eq_coe.mpr (allocGroup_union_perm htr hvr st g.2)
    simp only [← Multiset.coe_add] at hco
    simp only [unionOf, groupStems, List.map_cons, List.flatten_cons,
      ← Multiset.coe_add]
    rw [← hco]
    abel

theorem splitGroups_union_multiset {tr vr : ℚ} (htr : 0 ≤ tr) (hvr : 0 ≤ vr)
    (gs : Groups) (st : Nat) :
    (↑(unionOf (splitGroups tr vr gs st).1) : Multiset String) =
      ↑(groupStems gs) := by
  unfold splitGroups
  rw [splitGroupsGo_union_multiset htr hvr]
  simp [unionOf]

/-! Grouping redistributes the index keys exactly. -/

theorem groupStems_addToGroup_perm (gs : Groups) (k : Finset Int)
    (s : String) : (groupStems (addToGroup gs k s)).Perm (s :: groupStems gs) := by
  induction gs with
  | nil => simp [addToGroup, groupStems]
  | cons g gs ih =>
    simp only [addToGroup]
    split
    · simp only [groupStems, List.map_cons, List.flatten_cons,
        List.append_assoc, List.singleton_append]
      exact List.perm_middle
    · simp only [groupStems, List.map_cons, List.flatten_cons] at ih ⊢
      exact (ih.append_left g.2).trans List.perm_middle

theorem buildGroupsGo_stems (idx : Index) :
    ∀ gs : Groups, (↑(groupStems (buildGroupsGo gs idx)) : Multiset String) =
      ↑(groupStems gs) + ↑(keysOf idx) := by
  induction idx with
  | nil => intro gs; simp [buildGroupsGo, keysOf]
  | cons p rest ih =>
    intro gs
    simp only [buildGroupsGo]
    rw [ih, Multiset.coe_eq_coe.mpr (groupStems_addToGroup_perm gs p.2 p.1)]
    simp only [keysOf, List.map_cons, ← Multiset.cons_coe,
      ← Multiset.singleton_add]
    abel

theorem buildGroups_stems (idx : Index) :
    (↑(groupStems (buildGroups idx)) : Multiset String) = ↑(keysOf idx) := by
  unfold buildGroups
  rw [buildGroupsGo_stems]
  simp [groupStems]

/-! The index keys are built without duplicates. -/

theorem keysOf_cons (p : String × Finset Int) (l : Index) :
    keysOf (p :: l) = p.1 :: keysOf l := rfl

theorem keysOf_addClass_of_mem {idx : Index} {s : String} (c : Int)
    (h : s ∈ keysOf idx) : keysOf (addClass idx s c) = keysOf idx := by
  induction idx with
  | nil => simp [keysOf] at h
  | cons p rest ih =>
    by_cases hp : p.1 = s
    · simp [addClass, hp, keysOf_cons]
    · have hs : s ∈ keysOf rest := by
        rw [keysOf_cons, List.mem_cons] at h
        rcases h with h1 | h1
        · exact absurd h1.symm hp
        · exact h1
      simp only [addClass, if_neg hp, keysOf_cons, ih hs]

theorem keysOf_addClass_of_not_mem {idx : Index} {s : String} (c : Int)
    (h : s ∉ keysOf idx) : keysOf (addClass idx s c) = keysOf idx ++ [s] := by
  induction idx with
  | nil => simp [addClass, keysOf]
  | cons p rest ih =>
    have hp : ¬ p.1 = s := fun he => h (by
      rw [keysOf_cons, ← he]
      exact List.mem_cons_self _ _)
    have hs : s ∉ keysOf rest := fun hm => h (by
      rw [keysOf_cons]
      exact List.mem_cons_of_mem _ hm)
    simp only [addClass, if_neg hp, keysOf_cons, ih hs, List.cons_append]

theorem nodup_keysOf_addClass {idx : Index} {s : String} (c : Int)
    (h : (keysOf idx).Nodup) : (keysOf (addClass idx s c)).Nodup := by
  by_cases hm : s ∈ keysOf idx
  · rw [keysOf_addClass_of_mem c hm]; exact h
  · rw [keysOf_addClass_of_not_mem c hm]
    simp [List.nodup_append, h, hm]

theorem nodup_keysOf_processLine (stem : String)
    (acc : Index × List (String × String)) (line : String)
    (h : (keysOf acc.1).Nodup) :
    (keysOf (processLine stem acc line).1).Nodup := by
  unfold processLine
  cases hp : parseClassId line
  · simpa using h
  · simpa using nodup_keysOf_addClass _ h

theorem nodup_keysOf_foldl_processLine (stem : String) (lines : List String) :
    ∀ acc : Index × List (String × String), (keysOf acc.1).Nodup →
      (keysOf (lines.foldl (processLine stem) acc).1).Nodup := by
  induction lines with
  | nil => intro acc h; simpa using h
  | cons l ls ih =>
    intro acc h
    simp only [List.foldl_cons]
    exact ih _ (nodup_keysOf_processLine stem acc l h)

theorem nodup_keysOf_foldl_processFile (files : List (String × List String)) :
    ∀ acc : Index × List (String × String), (keysOf acc.1).Nodup →
      (keysOf (files.foldl processFile acc).1).Nodup := by
  induction files with
  | nil => intro acc h; simpa using h
  | cons f fs ih =>
    intro acc h
    simp only [List.foldl_cons]
    exact ih _ (nodup_keysOf_foldl_processLine f.1 f.2 acc h)

theorem nodup_keysOf_readLabels (files : List (String × List String)) :
    (keysOf (readLabels files).1).Nodup := by
  unfold readLabels
  exact nodup_keysOf_foldl_processFile files ([], []) (by simp [keysOf])

theorem nodup_keysOf_addImageStems (stems : List String) :
    ∀ idx : Index, (keysOf idx).Nodup →
      (keysOf (addImageStems idx stems)).Nodup := by
  induction stems with
  | nil => intro idx h; simpa [addImageStems] using h
  | cons s ss ih =>
    intro idx h
    simp only [addImageStems, List.foldl_cons]
    by_cases hm : s ∈ keysOf idx
    · simpa [addImageStems, hm] using ih idx h
    · have : keysOf (idx ++ [(s, (∅ : Finset Int))]) = keysOf idx ++ [s] := by
        simp [keysOf]
      have hnd : (keysOf (idx ++ [(s, (∅ : Finset Int))])).Nodup := by
        rw [this]
        simp [List.nodup_append, h, hm]
      simpa [addImageStems, hm] using ih _ hnd

theorem nodup_keysOf_fullIndex (imageFiles : List String)
    (labelFiles : List (String × List String)) :
    (keysOf (fullIndex imageFiles labelFiles)).Nodup :=
  nodup_keysOf_addImageStems _ _ (nodup_keysOf_readLabels labelFiles)

/-! The final reshuffles preserve split membership. -/

theorem finalShuffles_union_multiset (sp : Splits) (st : Nat) :
    (↑(unionOf (finalShuffles sp st).1) : Multiset String) = ↑(unionOf sp) := by
  simp only [finalShuffles, unionOf, ← Multiset.coe_add]
  rw [Multiset.coe_eq_coe.mpr (shuffle_perm st sp.train),
    Multiset.coe_eq_coe.mpr (shuffle_perm _ sp.val),
    Multiset.coe_eq_coe.mpr (shuffle_perm _ sp.test)]

theorem stratifiedRun_union_multiset {tr vr : ℚ} (htr : 0 ≤ tr)
    (hvr : 0 ≤ vr) (imageFiles : List String)
    (labelFiles : List (String × List String)) (seed : Nat) :
    (↑(unionOf (stratifiedRun imageFiles labelFiles tr vr seed).1) :
        Multiset String) =
      ↑(keysOf (fullIndex imageFiles labelFiles)) := by
  simp only [stratifiedRun]
  rw [finalShuffles_union_multiset, splitGroups_union_multiset htr hvr,
    buildGroups_stems]
  rfl

/-! Characterization of the label-reading pass. -/

theorem classesOf_addClass_self (idx : Index) (s : String) (c : Int) :
    classesOf (addClass idx s c) s = insert c (classesOf idx s) := by
  induction idx with
  | nil => simp [addClass, classesOf]
  | cons p rest ih =>
    by_cases hp : p.1 = s
    · simp [addClass, hp, classesOf]
    · simp [addClass, hp, classesOf, ih]

theorem classesOf_addClass_ne (idx : Index) {s t : String} (c : Int)
    (h : t ≠ s) : classesOf (addClass idx s c) t = classesOf idx t := by
  have h' : ¬ s = t := fun he => h he.symm
  induction idx with
  | nil => simp [addClass, classesOf, h']
  | cons p rest ih =>
    by_cases hp : p.1 = s
    · have hpt : ¬ p.1 = t := fun he => h' (hp.symm.trans he)
      simp [addClass, hp, classesOf, hpt, h']
    · by_cases hpt : p.1 = t
      · simp [addClass, hp, classesOf, hpt, h, h']
      · simp [addClass, hp, classesOf, hpt, ih]

theorem classesOf_processLine_self (stem : String)
    (acc : Index × List (String × String)) (line : String) :
    classesOf (processLine stem acc line).1 stem =
      match parseClassId line with
      | some c => insert c (classesOf acc.1 stem)
      | none => classesOf acc.1 stem := by
  unfold processLine
  cases parseClassId line
  · rfl
  · exact classesOf_addClass_self _ _ _

theorem classesOf_processLine_ne {stem t : String} (h : t ≠ stem)
    (acc : Index × List (String × String)) (line : String) :
    classesOf (processLine stem acc line).1 t = classesOf acc.1 t := by
  unfold processLine
  cases parseClassId line
  · rfl
  · exact classesOf_addClass_ne _ _ h

theorem classesOf_foldl_processLine_self (stem : String) (lines : List String) :
    ∀ acc : Index × List (String × String),
      classesOf ((lines.foldl (processLine stem) acc).1) stem =
        (lines.filterMap parseClassId).foldl (fun S c => insert c S)
          (classesOf acc.1 stem) := by
  induction lines with
  | nil => intro acc; rfl
  | cons l ls ih =>
    intro acc
    simp only [List.foldl_cons, List.filterMap_cons]
    cases hp : parseClassId l
    · rw [ih]
      have := classesOf_processLine_self stem acc l
      rw [hp] at this
      rw [this]
    · simp only [List.foldl_cons]
      rw [ih]
      have := classesOf_processLine_self stem acc l
      rw [hp] at this
      rw [this]

theorem classesOf_foldl_processLine_ne {stem t : String} (h : t ≠ stem)
    (lines : List String) :
    ∀ acc : Index × List (String × String),
      classesOf ((lines.foldl (processLine stem) acc).1) t =
        classesOf acc.1 t := by
  induction lines with
  | nil => intro acc; rfl
  | cons l ls ih =>
    intro acc
    simp only [List.foldl_cons]
    rw [ih, classesOf_processLine_ne h]

theorem foldl_insert_toFinset (cs : List Int) :
    ∀ S : Finset Int, cs.foldl (fun S c => insert c S) S = S ∪ cs.toFinset := by
  induction cs with
  | nil => intro S; simp
  | cons c cs ih =>
    intro S
    simp only [List.foldl_cons, List.toFinset_cons, ih,
      Finset.insert_union, Finset.union_insert]

theorem classesOf_foldl_processFile_ne (files : List (String × List String))
    {t : String} (h : t ∉ files.map Prod.fst) :
    ∀ acc : Index × List (String × String),
      classesOf ((files.foldl processFile acc).1) t = classesOf acc.1 t := by
  induction files with
  | nil => intro acc; rfl
  | cons f fs ih =>
    intro acc
    have h1 : t ≠ f.1 := by
      intro he
      exact h (by simp [he])
    have h2 : t ∉ fs.map Prod.fst := fun hm => h (by simp [hm])
    simp only [List.foldl_cons]
    rw [ih h2]
    unfold processFile
    exact classesOf_foldl_processLine_ne h1 f.2 acc

/-- Warnings accumulated by one file fold: the unparseable lines, in
order, paired with the stem. -/
theorem warns_foldl_processLine (stem : String) (lines : List String) :
    ∀ acc : Index × List (String × String),
      (lines.foldl (processLine stem) acc).2 =
        acc.2 ++ (lines.filter (fun l => (parseClassId l).isNone)).map
          (fun l => (stem, pyStrip l)) := by
  induction lines with
  | nil => intro acc; simp
  | cons l ls ih =>
    intro acc
    simp only [List.foldl_cons, List.filter_cons]
    cases hp : parseClassId l
    · simp only [hp, Option.isNone_none, if_pos, List.map_cons]
      rw [ih]
      simp [processLine, hp]
    · simp only [hp, Option.isNone_some, Bool.false_eq_true, if_neg,
        not_false_iff]
      rw [ih]
      simp [processLine, hp]

theorem warns_foldl_processFile (files : List (String × List String)) :
    ∀ acc : Index × List (String × String),
      (files.foldl processFile acc).2 =
        acc.2 ++ (files.map (fun f =>
          (f.2.filter (fun l => (parseClassId l).isNone)).map
            (fun l => (f.1, pyStrip l)))).flatten := by
  induction files with
  | nil => intro acc; simp
  | cons f fs ih =>
    intro acc
    simp only [List.foldl_cons, List.map_cons, List.flatten_cons]
    rw [ih]
    unfold processFile
    rw [warns_foldl_processLine]
    simp [List.append_assoc]

/-! Membership monotonicity of the index keys. -/

theorem mem_keysOf_addClass_self (idx : Index) (s : String) (c : Int) :
    s ∈ keysOf (addClass idx s c) := by
  by_cases hm : s ∈ keysOf idx
  · rw [keysOf_addClass_of_mem c hm]; exact hm
  · rw [keysOf_addClass_of_not_mem c hm]; simp

theorem mem_keysOf_addClass_of_mem (idx : Index) (s : String) (c : Int)
    {t : String} (h : t ∈ keysOf idx) : t ∈ keysOf (addClass idx s c) := by
  by_cases hm : s ∈ keysOf idx
  · rw [keysOf_addClass_of_mem c hm]; exact h
  · rw [keysOf_addClass_of_not_mem c hm]; exact List.mem_append_left _ h

theorem mem_keysOf_processLine (stem : String)
    (acc : Index × List (String × String)) (line : String) {t : String}
    (h : t ∈ keysOf acc.1) : t ∈ keysOf (processLine stem acc line).1 := by
  unfold processLine
  cases parseClassId line
  · exact h
  · exact mem_keysOf_addClass_of_mem _ _ _ h

theorem mem_keysOf_foldl_processLine (stem : String) (lines : List String) :
    ∀ acc : Index × List (String × String), ∀ {t : String},
      t ∈ keysOf acc.1 →
        t ∈ keysOf ((lines.foldl (processLine stem) acc).1) := by
  induction lines with
  | nil => intro acc t h; exact h
  | cons l ls ih =>
    intro acc t h
    simp only [List.foldl_cons]
    exact ih _ (mem_keysOf_processLine stem acc l h)

theorem mem_keysOf_foldl_processFile (files : List (String × List String)) :
    ∀ acc : Index × List (String × String), ∀ {t : String},
      t ∈ keysOf acc.1 → t ∈ keysOf ((files.foldl processFile acc).1) := by
  induction files with
  | nil => intro acc t h; exact h
  | cons f fs ih =>
    intro acc t h
    simp only [List.foldl_cons]
    exact ih _ (mem_keysOf_foldl_processLine f.1 f.2 acc h)

theorem mem_keysOf_own_file (stem : String) (lines : List String)
    (hl : ∃ l ∈ lines, (parseClassId l).isSome) :
    ∀ acc : Index × List (String × String),
      stem ∈ keysOf ((lines.foldl (processLine stem) acc).1) := by
  induction lines with
  | nil => simp at hl
  | cons l ls ih =>
    intro acc
    rcases hl with ⟨w, hw, hsome⟩
    simp only [List.foldl_cons]
    rcases List.mem_cons.mp hw with rfl | hmem
    · cases hp : parseClassId w with
      | none => rw [hp] at hsome; simp at hsome
      | some c =>
        apply mem_keysOf_foldl_processLine
        unfold processLine
        rw [hp]
        exact mem_keysOf_addClass_self _ _ _
    · exact ih ⟨w, hmem, hsome⟩ _

theorem mem_keysOf_addImageStems (stems : List String) :
    ∀ idx : Index, ∀ {t : String}, t ∈ keysOf idx →
      t ∈ keysOf (addImageStems idx stems) := by
  induction stems with
  | nil => intro idx t h; simpa [addImageStems] using h
  | cons s ss ih =>
    intro idx t h
    simp only [addImageStems, List.foldl_cons]
    by_cases hm : s ∈ keysOf idx
    · rw [if_pos hm]
      exact ih idx h
    · rw [if_neg hm]
      exact ih _ (by
        unfold keysOf at h ⊢
        rw [List.map_append]
        exact List.mem_append_left _ h)

/-! Materialization skips stems with no matching image file. -/

theorem materializeSplit_filter_no_image (imageFiles labelStems : List String)
    (copyFiles : Bool) (splitName : String) {b : String}
    (h : findImage imageFiles b = none) (stems : List String) :
    materializeSplit imageFiles labelStems copyFiles splitName stems =
      materializeSplit imageFiles labelStems copyFiles splitName
        (stems.filter (fun x => x ≠ b)) := by
  induction stems with
  | nil => rfl
  | cons s ss ih =>
    by_cases hs : s = b
    · subst hs
      simp only [materializeSplit, List.map_cons, List.flatten_cons,
        List.filter_cons] at ih ⊢
      have : matOps imageFiles labelStems copyFiles splitName s = [] := by
        unfold matOps
        rw [h]
      simp [this, ih]
    · simp only [materializeSplit, List.map_cons, List.flatten_cons,
        List.filter_cons] at ih ⊢
      simp [hs, ih]

/-! Bounds on the allocator counts, and the slice lengths they induce. -/

theorem allocCounts_train_le {tr vr : ℚ} (hvr : 0 ≤ vr) (n : Nat) :
    (allocCounts tr vr n).1 ≤ (n : Int) := by
  have h2 := nValAdj_nonneg tr hvr n
  simp only [allocCounts]
  split <;> dsimp only <;> omega

theorem allocCounts_sum12_le (tr vr : ℚ) (n : Nat) :
    (allocCounts tr vr n).1 + (allocCounts tr vr n).2.1 ≤ (n : Int) := by
  simp only [allocCounts]
  split <;> dsimp only <;> omega

theorem allocCounts_val_eq (tr vr : ℚ) (n : Nat) :
    (allocCounts tr vr n).2.1 = nValAdj tr vr n := by
  simp only [allocCounts]
  split <;> rfl

theorem allocGroup_lengths {tr vr : ℚ} (htr : 0 ≤ tr) (hvr0 : 0 ≤ vr)
    (hvr1 : vr ≤ 1) (st : Nat) (stems : List String)
    (hn : 3 ≤ stems.length) :
    ((allocGroup tr vr st stems).1.1.length : Int) =
        (allocCounts tr vr stems.length).1 ∧
      ((allocGroup tr vr st stems).1.2.1.length : Int) =
        (allocCounts tr vr stems.length).2.1 ∧
      ((allocGroup tr vr st stems).1.2.2.length : Int) =
        (allocCounts tr vr stems.length).2.2 := by
  have hlen := shuffle_length st stems
  have h1 : 0 ≤ (allocCounts tr vr stems.length).1 :=
    allocCounts_train_nonneg htr hvr1 (by omega)
  have h2 : (allocCounts tr vr stems.length).1 ≤ (stems.length : Int) :=
    allocCounts_train_le hvr0 stems.length
  have h3 : 0 ≤ (allocCounts tr vr stems.length).2.1 := by
    rw [allocCounts_val_eq]
    exact nValAdj_nonneg tr hvr0 stems.length
  have h4 : (allocCounts tr vr stems.length).1 +
      (allocCounts tr vr stems.length).2.1 ≤ (stems.length : Int) :=
    allocCounts_sum12_le tr vr stems.length
  have h5 := allocCounts_sum tr vr stems.length
  have e1 := length_pySliceTo (shuffle st stems).1
    (allocCounts tr vr stems.length).1
  have e2 := length_pySliceBetween (shuffle st stems).1
    (allocCounts tr vr stems.length).1
    ((allocCounts tr vr stems.length).1 + (allocCounts tr vr stems.length).2.1)
  have e3 := length_pySliceFrom (shuffle st stems).1
    ((allocCounts tr vr stems.length).1 + (allocCounts tr vr stems.length).2.1)
  rw [hlen] at e1 e2 e3
  rw [pyIdx_of_nonneg_le stems.length h1 h2] at e1 e2
  rw [pyIdx_of_nonneg_le stems.length (by omega) h4] at e2 e3
  simp only [allocGroup, hlen]
  rw [if_neg (by omega)]
  refine ⟨?_, ?_, ?_⟩
  · dsimp only
    rw [e1]
    omega
  · dsimp only
    rw [e2]
    omega
  · dsimp only
    rw [e3]
    omega

/-! Claims. -/

/-- C2: for every input (with the ratios non-negative, as the Ratios
data model of the spec requires), the union of the final train, val
and test stem lists is a permutation of the full indexed stem set and
contains no duplicate — so every indexed stem is assigned, no stem is
in two splits, and none appears twice within one split. -/
theorem C2_partition_completeness (imageFiles : List String)
    (labelFiles : List (String × List String)) {tr vr : ℚ} (seed : Nat)
    (htr : 0 ≤ tr) (hvr : 0 ≤ vr) :
    (unionOf (stratifiedRun imageFiles labelFiles tr vr seed).1).Perm
        (keysOf (fullIndex imageFiles labelFiles)) ∧
      (unionOf (stratifiedRun imageFiles labelFiles tr vr seed).1).Nodup := by
  have hperm :
      (unionOf (stratifiedRun imageFiles labelFiles tr vr seed).1).Perm
        (keysOf (fullIndex imageFiles labelFiles)) :=
    Multiset.coe_eq_coe.mp
      (stratifiedRun_union_multiset htr hvr imageFiles labelFiles seed)
  exact ⟨hperm,
    hperm.nodup_iff.mpr (nodup_keysOf_fullIndex imageFiles labelFiles)⟩

/-- Witness for C2 at a concrete dataset. -/
theorem C2_partition_completeness_witness :
    0 ≤ (4/5 : ℚ) ∧ 0 ≤ (1/10 : ℚ) ∧
      ((unionOf (stratifiedRun ["x.jpg", "y.png", "z.jpg"]
            [("x", ["0"]), ("y", ["1"])] (4/5) (1/10) 42).1).Perm
          (keysOf (fullIndex ["x.jpg", "y.png", "z.jpg"]
            [("x", ["0"]), ("y", ["1"])])) ∧
        (unionOf (stratifiedRun ["x.jpg", "y.png", "z.jpg"]
          [("x", ["0"]), ("y", ["1"])] (4/5) (1/10) 42).1).Nodup) :=
  ⟨by norm_num, by norm_num,
    C2_partition_completeness ["x.jpg", "y.png", "z.jpg"]
      [("x", ["0"]), ("y", ["1"])] 42 (by norm_num) (by norm_num)⟩

/-- C3 counterexample: with the validated, non-negative ratio triple
(0, 1025/1024, 0) — the sum 1025/1024 lies inside the accepted window
(0.999, 1.001) — a group of 1024 stems yields an adjusted n_train of
-1, and the train slice taken from the shuffled list has length 1023,
not n_train.  So the slice lengths do not always equal the computed
counts. -/
theorem C3_counterexample :
    ratiosValid 0 (1025/1024) 0 ∧ (0 : ℚ) ≤ 0 ∧ (0 : ℚ) ≤ 1025/1024 ∧
      (((allocGroup 0 (1025/1024) 0
          ((List.range 1024).map (fun i => toString i))).1.1.length : Int) ≠
        (allocCounts 0 (1025/1024)
          ((List.range 1024).map (fun i => toString i)).length).1) := by
  have hA : nTrainRaw 0 1024 = 0 := by
    unfold nTrainRaw pyTrunc
    rw [if_neg (by norm_num)]
    norm_num
  have hP : pyTrunc (((1024 : Nat) : ℚ) * (1025/1024)) = 1025 := by
    unfold pyTrunc
    rw [if_neg (by norm_num)]
    norm_num
  have hB : nValAdj 0 (1025/1024) 1024 = 1025 := by
    unfold nValAdj
    rw [hP, hA]
    rw [if_neg (by norm_num)]
  have hC : allocCounts 0 (1025/1024) 1024 = (-1, 1025, 0) := by
    simp only [allocCounts, hA, hB]
    decide
  have hlen : ((List.range 1024).map (fun i : Nat => toString i)).length =
      1024 := by simp
  refine ⟨by unfold ratiosValid; norm_num, le_rfl, by norm_num, ?_⟩
  rw [hlen, hC]
  have hsh := shuffle_length 0 ((List.range 1024).map
    (fun i : Nat => toString i))
  rw [hlen] at hsh
  simp only [allocGroup, hsh]
  rw [if_neg (by omega), hC]
  dsimp only
  have e1 := length_pySliceTo
    (shuffle 0 ((List.range 1024).map (fun i : Nat => toString i))).1
    (-1 : Int)
  rw [hsh] at e1
  rw [show pyIdx 1024 (-1) = 1023 from by decide] at e1
  rw [e1]
  decide

/-- C3 (amended): the counts always satisfy
n_train + n_val + n_test = group size, for every ratio pair; and
provided the ratios are non-negative with val_r at most 1, the three
slices taken from the shuffled group list have exactly lengths
n_train, n_val, n_test. -/
theorem C3_count_conservation {tr vr : ℚ} (htr : 0 ≤ tr) (hvr0 : 0 ≤ vr)
    (hvr1 : vr ≤ 1) (st : Nat) (stems : List String)
    (hn : 3 ≤ stems.length) :
    (allocCounts tr vr stems.length).1 + (allocCounts tr vr stems.length).2.1 +
        (allocCounts tr vr stems.length).2.2 = (stems.length : Int) ∧
      ((allocGroup tr vr st stems).1.1.length : Int) =
        (allocCounts tr vr stems.length).1 ∧
      ((allocGroup tr vr st stems).1.2.1.length : Int) =
        (allocCounts tr vr stems.length).2.1 ∧
      ((allocGroup tr vr st stems).1.2.2.length : Int) =
        (allocCounts tr vr stems.length).2.2 :=
  ⟨allocCounts_sum tr vr stems.length,
    allocGroup_lengths htr hvr0 hvr1 st stems hn⟩

/-- Witness for the amended C3 at a concrete 10-stem group with ratios
(0.8, 0.1, 0.1). -/
theorem C3_count_conservation_witness :
    0 ≤ (4/5 : ℚ) ∧ 0 ≤ (1/10 : ℚ) ∧ (1/10 : ℚ) ≤ 1 ∧
      3 ≤ ["s0", "s1", "s2", "s3", "s4", "s5", "s6", "s7", "s8", "s9"].length ∧
      ((allocCounts (4/5) (1/10)
            ["s0", "s1", "s2", "s3", "s4", "s5", "s6", "s7", "s8", "s9"].length).1 +
          (allocCounts (4/5) (1/10)
            ["s0", "s1", "s2", "s3", "s4", "s5", "s6", "s7", "s8", "s9"].length).2.1 +
          (allocCounts (4/5) (1/10)
            ["s0", "s1", "s2", "s3", "s4", "s5", "s6", "s7", "s8", "s9"].length).2.2 =
          (["s0", "s1", "s2", "s3", "s4", "s5", "s6", "s7", "s8", "s9"].length : Int) ∧
        ((allocGroup (4/5) (1/10) 42
            ["s0", "s1", "s2", "s3", "s4", "s5", "s6", "s7", "s8", "s9"]).1.1.length : Int) =
          (allocCounts (4/5) (1/10)
            ["s0", "s1", "s2", "s3", "s4", "s5", "s6", "s7", "s8", "s9"].length).1 ∧
        ((allocGroup (4/5) (1/10) 42
            ["s0", "s1", "s2", "s3", "s4", "s5", "s6", "s7", "s8", "s9"]).1.2.1.length : Int) =
          (allocCounts (4/5) (1/10)
            ["s0", "s1", "s2", "s3", "s4", "s5", "s6", "s7", "s8", "s9"].length).2.1 ∧
        ((allocGroup (4/5) (1/10) 42
            ["s0", "s1", "s2", "s3", "s4", "s5", "s6", "s7", "s8", "s9"]).1.2.2.length : Int) =
          (allocCounts (4/5) (1/10)
            ["s0", "s1", "s2", "s3", "s4", "s5", "s6", "s7", "s8", "s9"].length).2.2) :=
  ⟨by norm_num, by norm_num, by norm_num, by decide,
    C3_count_conservation (by norm_num) (by norm_num) (by norm_num) 42
      ["s0", "s1", "s2", "s3", "s4", "s5", "s6", "s7", "s8", "s9"]
      (by decide)⟩

/-- C4: a group of fewer than 3 stems goes wholly to train — its train
slice is a permutation of the whole group and its val and test slices
are empty — regardless of the ratios and of the PRNG state. -/
theorem C4_degenerate_group (tr vr : ℚ) (st : Nat) (stems : List String)
    (h : stems.length < 3) :
    ((allocGroup tr vr st stems).1.1).Perm stems ∧
      (allocGroup tr vr st stems).1.2.1 = [] ∧
      (allocGroup tr vr st stems).1.2.2 = [] := by
  have hlen := shuffle_length st stems
  simp only [allocGroup, hlen]
  rw [if_pos h]
  exact ⟨shuffle_perm st stems, rfl, rfl⟩

/-- Witness for C4 at a 2-stem group. -/
theorem C4_degenerate_group_witness :
    (["a", "b"] : List String).length < 3 ∧
      (((allocGroup (1/2) (1/4) 7 ["a", "b"]).1.1).Perm ["a", "b"] ∧
        (allocGroup (1/2) (1/4) 7 ["a", "b"]).1.2.1 = [] ∧
        (allocGroup (1/2) (1/4) 7 ["a", "b"]).1.2.2 = []) :=
  ⟨by decide, C4_degenerate_group (1/2) (1/4) 7 ["a", "b"] (by decide)⟩

/-- C5 counterexample: with ratios (1, 1/2048, 0) — non-negative, sum
inside the accepted window — a group of 3 stems has val_r > 0 and
floor(n*val_r) = 0, yet its val slice is empty, because the forcing
rule additionally requires n_total > n_train and here n_train = 3 = n.
So the claim as stated (without the n > n_train condition) fails. -/
theorem C5_counterexample :
    ratiosValid 1 (1/2048) 0 ∧
      3 ≤ (["a", "b", "c"] : List String).length ∧ (0 : ℚ) < 1/2048 ∧
      pyTrunc (((["a", "b", "c"] : List String).length : ℚ) * (1/2048)) = 0 ∧
      (allocGroup 1 (1/2048) 0 ["a", "b", "c"]).1.2.1 = [] := by
  have hA : nTrainRaw 1 3 = 3 := by
    unfold nTrainRaw pyTrunc
    rw [if_neg (by norm_num)]
    norm_num
  have hP : pyTrunc (((3 : Nat) : ℚ) * (1/2048)) = 0 := by
    unfold pyTrunc
    rw [if_neg (by norm_num)]
    norm_num
  have hval : nValAdj 1 (1/2048) 3 = 0 := by
    unfold nValAdj
    rw [hP, hA]
    rw [if_neg (fun h => absurd h.2.2 (by omega))]
  refine ⟨by unfold ratiosValid; norm_num, by decide, by norm_num,
    hP, ?_⟩
  have hl := (allocGroup_lengths (by norm_num : (0 : ℚ) ≤ 1)
    (by norm_num : (0 : ℚ) ≤ 1/2048) (by norm_num) 0 ["a", "b", "c"]
    (by decide)).2.1
  rw [show (["a", "b", "c"] : List String).length = 3 from rfl] at hl
  rw [allocCounts_val_eq, hval] at hl
  exact List.length_eq_zero.mp (by exact_mod_cast hl)

/-- C5 (amended): for a group of size n ≥ 3 with val_r > 0 and
floor(n*val_r) = 0 and additionally n > floor(n*train_r) (the condition
the source line 94 actually tests, train_r non-negative), the val slice
is non-empty. -/
theorem C5_min_validation {tr vr : ℚ} (st : Nat) (stems : List String)
    (htr : 0 ≤ tr) (hvr : 0 < vr) (hn : 3 ≤ stems.length)
    (hfloor : pyTrunc ((stems.length : ℚ) * vr) = 0)
    (htrain : nTrainRaw tr stems.length < (stems.length : Int)) :
    0 < (allocGroup tr vr st stems).1.2.1.length := by
  have hval : nValAdj tr vr stems.length = 1 := by
    unfold nValAdj
    rw [if_pos ⟨hvr, hfloor, htrain⟩]
  have ha0 : 0 ≤ nTrainRaw tr stems.length := nTrainRaw_nonneg htr _
  have hc : allocCounts tr vr stems.length =
      (nTrainRaw tr stems.length, 1,
        (stems.length : Int) - nTrainRaw tr stems.length - 1) := by
    simp only [allocCounts, hval]
    rw [if_neg (by omega)]
  have hsh := shuffle_length st stems
  have e2 := length_pySliceBetween (shuffle st stems).1
    (nTrainRaw tr stems.length) (nTrainRaw tr stems.length + 1)
  rw [hsh] at e2
  rw [pyIdx_of_nonneg_le _ ha0 (by omega)] at e2
  rw [pyIdx_of_nonneg_le _ (by omega) (by omega)] at e2
  simp only [allocGroup, hsh]
  rw [if_neg (by omega), hc]
  dsimp only
  rw [e2]
  omega

/-- Witness for the amended C5: 5 stems, ratios (0.8, 0.01). -/
theorem C5_min_validation_witness :
    0 ≤ (4/5 : ℚ) ∧ (0 : ℚ) < 1/100 ∧
      3 ≤ (["a", "b", "c", "d", "e"] : List String).length ∧
      pyTrunc (((["a", "b", "c", "d", "e"] : List String).length : ℚ) *
        (1/100)) = 0 ∧
      nTrainRaw (4/5) (["a", "b", "c", "d", "e"] : List String).length <
        ((["a", "b", "c", "d", "e"] : List String).length : Int) ∧
      0 < (allocGroup (4/5) (1/100) 11 ["a", "b", "c", "d", "e"]).1.2.1.length := by
  have hP : pyTrunc (((5 : Nat) : ℚ) * (1/100)) = 0 := by
    unfold pyTrunc
    rw [if_neg (by norm_num)]
    norm_num
  have hA : nTrainRaw (4/5) 5 = 4 := by
    unfold nTrainRaw pyTrunc
    rw [if_neg (by norm_num)]
    norm_num
  refine ⟨by norm_num, by norm_num, by decide, hP, by rw [show
    (["a", "b", "c", "d", "e"] : List String).length = 5 from rfl, hA]; omega, ?_⟩
  exact C5_min_validation 11 ["a", "b", "c", "d", "e"] (by norm_num)
    (by norm_num) (by decide) hP (by
      rw [show (["a", "b", "c", "d", "e"] : List String).length = 5 from rfl,
        hA]
      omega)

/-- C6 counterexample: with the validated, non-negative ratio triple
(0, 1025/1024, 0) and a group of n = 1024, the remainder
n - n_train - n_val is negative and the adjusted train count is -1:
the code does absorb the deficit into n_train and zero the test count,
but the adjusted train count is negative, refuting the final conjunct
of the claim. -/
theorem C6_counterexample :
    ratiosValid 0 (1025/1024) 0 ∧
      ((1024 : Nat) : Int) - nTrainRaw 0 1024 - nValAdj 0 (1025/1024) 1024 <
        0 ∧
      (allocCounts 0 (1025/1024) 1024).1 < 0 := by
  have hA : nTrainRaw 0 1024 = 0 := by
    unfold nTrainRaw pyTrunc
    rw [if_neg (by norm_num)]
    norm_num
  have hP : pyTrunc (((1024 : Nat) : ℚ) * (1025/1024)) = 1025 := by
    unfold pyTrunc
    rw [if_neg (by norm_num)]
    norm_num
  have hB : nValAdj 0 (1025/1024) 1024 = 1025 := by
    unfold nValAdj
    rw [hP, hA]
    rw [if_neg (by norm_num)]
  refine ⟨by unfold ratiosValid; norm_num, by rw [hA, hB]; decide, ?_⟩
  simp only [allocCounts, hA, hB]
  decide

/-- C6 (amended): the test count is never negative, and whenever the
remainder n - n_train - n_val is negative the deficit is absorbed into
n_train (the train count becomes n - n_val) and the test count is set
to 0; the adjusted train count is moreover non-negative provided
val_r ≤ 1 (for val_r > 1, still accepted by the sum check, it can be
negative, as the counterexample shows). -/
theorem C6_rounding_debt {tr vr : ℚ} (n : Nat) (htr : 0 ≤ tr)
    (hvr1 : vr ≤ 1) (hn : 1 ≤ n) :
    ((n : Int) - nTrainRaw tr n - nValAdj tr vr n < 0 →
        (allocCounts tr vr n).1 = (n : Int) - nValAdj tr vr n ∧
          (allocCounts tr vr n).2.2 = 0) ∧
      0 ≤ (allocCounts tr vr n).2.2 ∧ 0 ≤ (allocCounts tr vr n).1 := by
  refine ⟨?_, allocCounts_test_nonneg tr vr n,
    allocCounts_train_nonneg htr hvr1 hn⟩
  intro hdef
  simp only [allocCounts]
  rw [if_pos hdef]
  exact ⟨by dsimp only; ring, rfl⟩

/-- Witness for the amended C6: ratios (0.9, 0.2), group size 10 — the
remainder is -1, so the deficit branch is exercised. -/
theorem C6_rounding_debt_witness :
    0 ≤ (9/10 : ℚ) ∧ (1/5 : ℚ) ≤ 1 ∧ 1 ≤ (10 : Nat) ∧
      ((((10 : Nat) : Int) - nTrainRaw (9/10) 10 - nValAdj (9/10) (1/5) 10 <
          0 →
        (allocCounts (9/10) (1/5) 10).1 =
            ((10 : Nat) : Int) - nValAdj (9/10) (1/5) 10 ∧
          (allocCounts (9/10) (1/5) 10).2.2 = 0) ∧
        0 ≤ (allocCounts (9/10) (1/5) 10).2.2 ∧
        0 ≤ (allocCounts (9/10) (1/5) 10).1) :=
  ⟨by norm_num, by norm_num, by decide,
    C6_rounding_debt 10 (by norm_num) (by norm_num) (by decide)⟩

/-- C1: with the images directory present and the labels directory
missing, the run returns successfully with the fallback warning
emitted, but with NO stem assignment (assignments = none) and no file
operation — while the discarded computation inside _split_randomly
would have partitioned both image stems.  The fallback split is
computed and then thrown away (the helper body ends in `pass` and
returns None), so no image stem actually receives a train/val/test
assignment, contradicting the claim (and the intent recorded in the
code comments of the fallback path themselves). -/
theorem C1_fallback_discards_split :
    split_dataset_stratified ⟨true, false, ["a.jpg", "b.jpg"], []⟩ (4/5)
          (1/10) (1/10) false 42 =
        Except.ok ⟨[noLabelsWarning], none, []⟩ ∧
      (unionOf (_split_randomly_lists ["a.jpg", "b.jpg"] (4/5) (1/10)
        42)).Perm ["a", "b"] := by
  constructor
  · unfold split_dataset_stratified
    rw [if_pos (by unfold ratiosValid; norm_num)]
    rfl
  · unfold _split_randomly_lists
    have hL : imageStemsOf ["a.jpg", "b.jpg"] = ["a", "b"] := by decide
    rw [hL]
    have hsh : (shuffle (seedInit 42) ["a", "b"]).1 = ["b", "a"] := by decide
    rw [hsh]
    dsimp only
    have htc : pyTrunc (((["b", "a"] : List String).length : ℚ) * (4/5)) =
        1 := by
      show pyTrunc (((2 : Nat) : ℚ) * (4/5)) = 1
      unfold pyTrunc
      rw [if_neg (by norm_num)]
      norm_num
    have hvc : pyTrunc (((["b", "a"] : List String).length : ℚ) * (1/10)) =
        0 := by
      show pyTrunc (((2 : Nat) : ℚ) * (1/10)) = 0
      unfold pyTrunc
      rw [if_neg (by norm_num)]
      norm_num
    rw [htc, hvc]
    decide

/-- C7 counterexample: the triple (1.5, -0.25, -0.25) sums to exactly
1.0 and passes the validation of source line 23, although two of its
entries are negative: the function proceeds normally instead of
raising.  Only the sum is validated; non-negativity is not. -/
theorem C7_counterexample :
    ratiosValid (3/2) (-1/4) (-1/4) ∧ ((-1/4 : ℚ) < 0) ∧
      split_dataset_stratified ⟨true, false, [], []⟩ (3/2) (-1/4) (-1/4)
          false 42 =
        Except.ok ⟨[noLabelsWarning], none, []⟩ := by
  refine ⟨by unfold ratiosValid; norm_num, by norm_num, ?_⟩
  unfold split_dataset_stratified
  rw [if_pos (by unfold ratiosValid; norm_num)]
  rfl

/-- C7 (amended): the entry validation checks only that the ratio sum
lies strictly between 0.999 and 1.001; when it does not, the run
raises the configuration error before inspecting any directory or
touching any file — the result is this error for every directory
state. -/
theorem C7_ratio_validation (d : DirListing) (tr vr te : ℚ)
    (copyFiles : Bool) (seed : Nat) (h : ¬ ratiosValid tr vr te) :
    split_dataset_stratified d tr vr te copyFiles seed =
      Except.error (ratioErrMsg (tr + vr + te)) := by
  unfold split_dataset_stratified
  rw [if_neg h]

/-- Witness for the amended C7: ratio sum 0.7 is rejected. -/
theorem C7_ratio_validation_witness :
    ¬ ratiosValid (1/2) (1/10) (1/10) ∧
      split_dataset_stratified ⟨true, true, ["a.jpg"], []⟩ (1/2) (1/10)
          (1/10) false 42 =
        Except.error (ratioErrMsg (1/2 + 1/10 + 1/10)) :=
  ⟨by unfold ratiosValid; norm_num,
    C7_ratio_validation ⟨true, true, ["a.jpg"], []⟩ (1/2) (1/10) (1/10)
      false 42 (by unfold ratiosValid; norm_num)⟩

/-- C8: the embedding threads one PRNG state initialized from the seed
(image of random.seed at line 21) through every shuffle in a fixed
order, so the whole run is a pure function of the directory listings,
the ratios, the copy flag and the seed: two runs on equal inputs with
equal seeds return equal results, warnings, assignments and file
operations alike. -/
theorem C8_determinism (d d2 : DirListing) (tr tr2 vr vr2 te te2 : ℚ)
    (cf cf2 : Bool) (s s2 : Nat) (hd : d = d2) (h1 : tr = tr2)
    (h2 : vr = vr2) (h3 : te = te2) (hc : cf = cf2) (hs : s = s2) :
    split_dataset_stratified d tr vr te cf s =
      split_dataset_stratified d2 tr2 vr2 te2 cf2 s2 := by
  subst hd h1 h2 h3 hc hs
  rfl

/-- Witness for C8 at one concrete dataset and seed. -/
theorem C8_determinism_witness :
    (⟨true, true, ["a.jpg", "b.jpg", "c.png"],
          [("a", ["0"]), ("b", ["1"])]⟩ : DirListing) =
        ⟨true, true, ["a.jpg", "b.jpg", "c.png"],
          [("a", ["0"]), ("b", ["1"])]⟩ ∧
      split_dataset_stratified
          ⟨true, true, ["a.jpg", "b.jpg", "c.png"],
            [("a", ["0"]), ("b", ["1"])]⟩ (4/5) (1/10) (1/10) false 42 =
        split_dataset_stratified
          ⟨true, true, ["a.jpg", "b.jpg", "c.png"],
            [("a", ["0"]), ("b", ["1"])]⟩ (4/5) (1/10) (1/10) false 42 :=
  ⟨rfl, C8_determinism _ _ _ _ _ _ _ _ _ _ _ _ rfl rfl rfl rfl rfl rfl⟩

theorem nodup_split_not_mem {γ : Type} {A B : List γ} {x : γ}
    (h : (A ++ x :: B).Nodup) : x ∉ A ∧ x ∉ B := by
  rw [List.nodup_append] at h
  exact ⟨fun hx => h.2.2 hx (List.mem_cons_self x B),
    (List.nodup_cons.mp h.2.1).1⟩

theorem classesOf_readLabels_split (fs1 fs2 : List (String × List String))
    (stem : String) (lines : List String)
    (h1 : stem ∉ fs1.map Prod.fst) (h2 : stem ∉ fs2.map Prod.fst) :
    classesOf (readLabels (fs1 ++ (stem, lines) :: fs2)).1 stem =
      (lines.filterMap parseClassId).toFinset := by
  unfold readLabels
  rw [List.foldl_append, List.foldl_cons]
  rw [classesOf_foldl_processFile_ne fs2 h2]
  show classesOf
      ((lines.foldl (processLine stem) (fs1.foldl processFile ([], []))).1)
      stem = _
  rw [classesOf_foldl_processLine_self]
  rw [classesOf_foldl_processFile_ne fs1 h1]
  rw [foldl_insert_toFinset]
  simp [classesOf]

/-- C9: over label files with pairwise-distinct stems, a file holding
malformed lines is still indexed from its parseable lines alone (its
final class set is exactly the set of class ids of its parseable
lines, so valid lines of the same file survive the malformed ones),
each malformed line contributes a warning, and every later file is
indexed exactly as its own lines dictate — processing continues
unaffected. -/
theorem C9_malformed_lines (fs1 fs2 : List (String × List String))
    (stem : String) (lines : List String)
    (hnd : ((fs1 ++ (stem, lines) :: fs2).map Prod.fst).Nodup) :
    classesOf (readLabels (fs1 ++ (stem, lines) :: fs2)).1 stem =
        (lines.filterMap parseClassId).toFinset ∧
      (∀ l ∈ lines, parseClassId l = none →
        (stem, pyStrip l) ∈ (readLabels (fs1 ++ (stem, lines) :: fs2)).2) ∧
      (∀ p ∈ fs2,
        classesOf (readLabels (fs1 ++ (stem, lines) :: fs2)).1 p.1 =
          (p.2.filterMap parseClassId).toFinset) := by
  have hnd' := hnd
  rw [List.map_append, List.map_cons] at hnd'
  obtain ⟨h1, h2⟩ := nodup_split_not_mem hnd'
  refine ⟨classesOf_readLabels_split fs1 fs2 stem lines h1 h2, ?_, ?_⟩
  · intro l hl hnone
    unfold readLabels
    rw [warns_foldl_processFile, List.nil_append]
    exact List.mem_flatten.mpr ⟨_,
      List.mem_map_of_mem _
        (List.mem_append_right _ (List.mem_cons_self _ _)),
      List.mem_map_of_mem _
        (List.mem_filter.mpr ⟨hl, by simp [hnone]⟩)⟩
  · intro p hp
    obtain ⟨g1, g2, rfl⟩ := List.append_of_mem hp
    have hre : fs1 ++ (stem, lines) :: (g1 ++ p :: g2) =
        (fs1 ++ (stem, lines) :: g1) ++ p :: g2 := by simp
    rw [hre] at hnd ⊢
    rw [List.map_append, List.map_cons] at hnd
    obtain ⟨hp1, hp2⟩ := nodup_split_not_mem hnd
    exact classesOf_readLabels_split _ _ p.1 p.2 hp1 hp2

/-- Witness for C9: file a has one malformed and one valid line; file b
follows and is indexed unaffected. -/
theorem C9_malformed_lines_witness :
    ((([] : List (String × List String)) ++
        ("a", ["bad line", "2 0.5 0.5"]) :: [("b", ["3"])]).map
      Prod.fst).Nodup ∧
      (classesOf (readLabels (([] : List (String × List String)) ++
            ("a", ["bad line", "2 0.5 0.5"]) :: [("b", ["3"])])).1 "a" =
          ((["bad line", "2 0.5 0.5"] : List String).filterMap
            parseClassId).toFinset ∧
        (∀ l ∈ (["bad line", "2 0.5 0.5"] : List String),
          parseClassId l = none →
            ("a", pyStrip l) ∈ (readLabels
              (([] : List (String × List String)) ++
                ("a", ["bad line", "2 0.5 0.5"]) :: [("b", ["3"])])).2) ∧
        (∀ p ∈ ([("b", ["3"])] : List (String × List String)),
          classesOf (readLabels (([] : List (String × List String)) ++
              ("a", ["bad line", "2 0.5 0.5"]) :: [("b", ["3"])])).1 p.1 =
            (p.2.filterMap parseClassId).toFinset)) :=
  ⟨by decide, C9_malformed_lines [] [("b", ["3"])] "a"
    ["bad line", "2 0.5 0.5"] (by decide)⟩

/-- C10 counterexample: the label file of stem a exists but none of its
lines parses (the only line is malformed), and no image file matches;
the stem is then NOT indexed and receives no assignment — the final
splits are empty — refuting the claim that every stem with a label
file is indexed and assigned. -/
theorem C10_counterexample :
    ("a", ["oops"]) ∈ ([("a", ["oops"])] : List (String × List String)) ∧
      findImage [] "a" = none ∧
      "a" ∉ unionOf (stratifiedRun [] [("a", ["oops"])] (4/5) (1/10)
        42).1 :=
  ⟨List.mem_cons_self _ _, rfl, by decide⟩

/-- C10 (amended): a stem whose label file exists and contains at least
one parseable line is indexed, grouped and assigned to some split even
when no image file matches it; and at materialization, a stem with no
matching image contributes no file operation at all — the materializer
output over any split list equals the output with that stem removed
(it is skipped silently, and no error path exists in the model for
it). -/
theorem C10_label_without_image (imageFiles : List String)
    (labelFiles : List (String × List String)) {tr vr : ℚ} (seed : Nat)
    (stem : String) (lines : List String) (htr : 0 ≤ tr) (hvr : 0 ≤ vr)
    (hmem : (stem, lines) ∈ labelFiles)
    (hparse : ∃ l ∈ lines, (parseClassId l).isSome)
    (himg : findImage imageFiles stem = none) :
    stem ∈ unionOf (stratifiedRun imageFiles labelFiles tr vr seed).1 ∧
      ∀ (labelStems : List String) (copyFiles : Bool) (splitName : String)
        (stems : List String),
        materializeSplit imageFiles labelStems copyFiles splitName stems =
          materializeSplit imageFiles labelStems copyFiles splitName
            (stems.filter (fun x => x ≠ stem)) := by
  constructor
  · have hkeys : stem ∈ keysOf (readLabels labelFiles).1 := by
      obtain ⟨fs1, fs2, rfl⟩ := List.append_of_mem hmem
      unfold readLabels
      rw [List.foldl_append, List.foldl_cons]
      exact mem_keysOf_foldl_processFile fs2 _
        (mem_keysOf_own_file stem lines hparse _)
    have hfull : stem ∈ keysOf (fullIndex imageFiles labelFiles) :=
      mem_keysOf_addImageStems _ _ hkeys
    have hmem2 : stem ∈ (↑(unionOf
        (stratifiedRun imageFiles labelFiles tr vr seed).1) :
          Multiset String) := by
      rw [stratifiedRun_union_multiset htr hvr imageFiles labelFiles seed]
      exact Multiset.mem_coe.mpr hfull
    exact Multiset.mem_coe.mp hmem2
  · intro labelStems copyFiles splitName stems
    exact materializeSplit_filter_no_image imageFiles labelStems copyFiles
      splitName himg stems

/-- Witness for the amended C10: stem a has a parseable label file and
no matching image; it is assigned, and the materializer emits the same
operations with or without it. -/
theorem C10_label_without_image_witness :
    0 ≤ (4/5 : ℚ) ∧ 0 ≤ (1/10 : ℚ) ∧
      ("a", ["1"]) ∈ ([("a", ["1"]), ("b", ["0"])] :
        List (String × List String)) ∧
      (∃ l ∈ (["1"] : List String), (parseClassId l).isSome) ∧
      findImage ["b.jpg"] "a" = none ∧
      "a" ∈ unionOf (stratifiedRun ["b.jpg"] [("a", ["1"]), ("b", ["0"])]
        (4/5) (1/10) 42).1 ∧
      materializeSplit ["b.jpg"] ["a", "b"] false "train" ["a", "b"] =
        materializeSplit ["b.jpg"] ["a", "b"] false "train"
          ((["a", "b"] : List String).filter (fun x => x ≠ "a")) :=
  ⟨by norm_num, by norm_num, by decide, by decide, by decide,
    (C10_label_without_image ["b.jpg"] [("a", ["1"]), ("b", ["0"])] 42 "a"
      ["1"] (by norm_num : (0 : ℚ) ≤ 4/5) (by norm_num : (0 : ℚ) ≤ 1/10)
      (by decide) (by decide) (by decide)).1,
    (C10_label_without_image ["b.jpg"] [("a", ["1"]), ("b", ["0"])] 42 "a"
      ["1"] (by norm_num : (0 : ℚ) ≤ 4/5) (by norm_num : (0 : ℚ) ≤ 1/10)
      (by decide) (by decide) (by decide)).2 ["a", "b"] false "train"
      ["a", "b"]⟩

end SplitDataset
